import Mathlib

/-
Shallow embedding of the Moonshine Lua VM orchestration layer
(src/vm/src/VM.js): the suspend/resume status machine, the resume
stack and callback queue handled by `shine.VM.prototype.resume`, the
host-error wrapping of its catch block, `execute`'s precondition
checks, `load`'s success callback, `dispose`, and the global-namespace
construction of `_resetGlobals` / `_bindLib` over an explicit heap.
-/

namespace Moonshine

/-- VM-wide execution status (shine.RUNNING = 0 .. shine.DEAD = 4). -/
inductive VMStatus
| running
| suspending
| suspended
| resuming
| dead
deriving DecidableEq, Repr

/-- An entry of a structured `shine.Error`'s `luaStack`: either a line of
native diagnostic text (from `stack.split('\n')`) or a `[unit, pc]` frame
pushed by `resume`'s catch block. Units are identified by a numeric id. -/
inductive LuaEntry
| line (s : String)
| frame (unit : Nat) (pc : Int)
deriving DecidableEq, Repr

/-- A structured error (`shine.Error`): message, native stack text and the
optional `luaStack` trace (absent models the JS `undefined` field). -/
structure ShineError where
  message : String
  stack : String
  luaStack : Option (List LuaEntry)
deriving DecidableEq, Repr

/-- A value raised during a unit's re-drive inside `resume`: either already a
structured `shine.Error`, or a native JS error carrying `message` and an
optional `stack` string. -/
inductive JsThrown
| shineErr (err : ShineError)
| jsErr (message : String) (stack : Option String)
deriving DecidableEq, Repr

/-- The observable effect of running one resumable unit or one queued
callback: an optional write to the VM status field, units pushed onto the
resume stack, callbacks appended to the callback queue, and an optionally
raised value. Defaults model a run with no side effects. -/
structure Act where
  setStatus : Option VMStatus := none
  pushR : List Nat := []
  enq : List Nat := []
  raises : Option JsThrown := none
deriving DecidableEq, Repr

/-- Log of observable invocations performed by `resume`. -/
inductive REvent
| ranUnit (u : Nat)
| ranCallback (c : Nat)
deriving DecidableEq, Repr

/-- The VM state touched by suspend/resume: `_status`, `_resumeStack` (JS
array order: index 0 oldest, `push` appends, `pop` removes the last entry),
`_callbackQueue` (head is the front, `shift` removes it), whether a deferred
suspend check is scheduled, and a log of invocations. -/
structure VMState where
  status : VMStatus
  resumeStack : List Nat
  callbackQueue : List Nat
  checkPending : Bool
  log : List REvent
deriving DecidableEq, Repr

/-- Interpretation environment: what each unit id / callback id does when
invoked, and each unit's last recorded program counter `_pc`. -/
structure Interp where
  unitAct : Nat → Act
  cbAct : Nat → Act
  pc : Nat → Int

/-- Modelled from the spec: suspension of an in-flight unit records it with a
JS-array `push` onto the VM's resume stack (the pushing code lives in the
execution-unit collaborators, outside this file). -/
def jsPush (l : List Nat) (u : Nat) : List Nat := l ++ [u]

/-- JS `Array.prototype.pop`: removes and returns the last element;
returns `undefined` (here `none`) on an empty array. -/
def jsPop : List Nat → Option (List Nat × Nat)
| [] => none
| [a] => some ([], a)
| a :: b :: rest =>
  match jsPop (b :: rest) with
  | some (front, last) => some (a :: front, last)
  | none => none

/-- Apply the effects of one invocation to the VM state and append the
corresponding log event. -/
def applyRun (a : Act) (ev : REvent) (st : VMState) : VMState :=
  { st with
    status := match a.setStatus with | some s => s | none => st.status
    resumeStack := st.resumeStack ++ a.pushR
    callbackQueue := st.callbackQueue ++ a.enq
    log := st.log ++ [ev] }

/-- `shine.VM.prototype.suspend` (VM.js:191-199): sets status to SUSPENDING
immediately and schedules the deferred check on the host scheduler. -/
def suspend (st : VMState) : VMState :=
  { st with status := VMStatus.suspending, checkPending := true }

/-- The deferred callback scheduled by `suspend` (VM.js:196-198): when the
host's timer fires it sets status to SUSPENDED only if the status is still
SUSPENDING. -/
def fireCheck (st : VMState) : VMState :=
  { st with
    status := if st.status = VMStatus.suspending then VMStatus.suspended else st.status
    checkPending := false }

/-- JS `String.prototype.split('\n')` on the native stack text. -/
def splitLinesAux : List Char → List Char → List String
| [], acc => [String.mk acc.reverse]
| c :: rest, acc =>
  if c = '\n' then String.mk acc.reverse :: splitLinesAux rest []
  else splitLinesAux rest (c :: acc)

/-- JS `s.split('\n')`: splits a string on newline characters; the empty
string yields `[""]`, exactly as in JS. -/
def jsSplitNewline (s : String) : List String := splitLinesAux s.toList []

/-- The catch block of `resume` (VM.js:223-235): a raised value that is not
already a `shine.Error` is wrapped into one with message
`'Error in host call: ' + e.message`, its native `stack` text preserved and
split on newlines into `luaStack`; then (for every error) a
`[f, f._pc - 1]` frame is pushed onto `luaStack`. -/
def wrapResumeError (u : Nat) (upc : Int) : JsThrown → ShineError
| JsThrown.shineErr err =>
  { err with
    luaStack := some ((match err.luaStack with | some l => l | none => []) ++
      [LuaEntry.frame u (upc - 1)]) }
| JsThrown.jsErr msg stk =>
  let s := match stk with | some s => s | none => ""
  { message := "Error in host call: " ++ msg
    stack := s
    luaStack := some (List.map LuaEntry.line (jsSplitNewline s) ++
      [LuaEntry.frame u (upc - 1)]) }

/-- Result of a `resume` call. `ok` is a normal return; `err` means a
structured error was handed to the Error Normalizer
(`shine.Error.catchExecutionError`, external to this file), which per the
spec surfaces it to the host; `uncaught` is a value raised by a drained
callback outside any try block; `fuelOut` means the drain loop did not
finish within the given fuel. -/
inductive RResult
| ok (st : VMState)
| err (e : ShineError) (st : VMState)
| uncaught (e : JsThrown) (st : VMState)
| fuelOut
deriving DecidableEq, Repr

/-- The drain loop at the end of `resume` (VM.js:240):
`while (this._callbackQueue[0]) this._callbackQueue.shift()();` —
repeatedly removes the front of the callback queue and invokes it (the
invoked callback may append further callbacks). `fuel` bounds the number
of iterations modelled. -/
def drain (I : Interp) : Nat → VMState → RResult
| 0, st =>
  match st.callbackQueue with
  | [] => RResult.ok st
  | _ :: _ => RResult.fuelOut
| fuel+1, st =>
  match st.callbackQueue with
  | [] => RResult.ok st
  | c :: rest =>
    let a := I.cbAct c
    let st1 := applyRun a (REvent.ranCallback c) { st with callbackQueue := rest }
    match a.raises with
    | some e => RResult.uncaught e st1
    | none => drain I fuel st1

/-- The first-in-first-out invocation order of a drain: the front callback
runs first, and callbacks it appends are processed after the rest of the
queue. This is the specification-side recursion that `drain` is proved to
implement. -/
def drainOrder (enqF : Nat → List Nat) : Nat → List Nat → Option (List Nat)
| 0, [] => some []
| 0, _ :: _ => none
| _+1, [] => some []
| fuel+1, c :: rest =>
  match drainOrder enqF fuel (rest ++ enqF c) with
  | some ord => some (c :: ord)
  | none => none

/-- `shine.VM.prototype.resume` (VM.js:207-241): sets status to RESUMING,
pops the resume stack; if a unit was present it is re-driven and any raised
value is wrapped by `wrapResumeError` and handed to the Error Normalizer;
otherwise (and after a successful re-drive) the callback queue is drained. -/
def resume (I : Interp) (fuel : Nat) (st : VMState) : RResult :=
  let st0 := { st with status := VMStatus.resuming }
  match jsPop st0.resumeStack with
  | none => drain I fuel st0
  | some (front, u) =>
    let a := I.unitAct u
    let st1 := applyRun a (REvent.ranUnit u) { st0 with resumeStack := front }
    match a.raises with
    | some e => RResult.err (wrapResumeError u (I.pc u) e) st1
    | none => drain I fuel st1

/-- Iterate `resume` a given number of times, stopping at the first
non-normal result. -/
def resumeIter (I : Interp) (fuel : Nat) : Nat → VMState → RResult
| 0, st => RResult.ok st
| n+1, st =>
  match resume I fuel st with
  | RResult.ok st1 => resumeIter I fuel n st1
  | r => r

/-- The state carried by a resume result, when there is one. -/
def stateOf : RResult → Option VMState
| RResult.ok st => some st
| RResult.err _ st => some st
| RResult.uncaught _ st => some st
| RResult.fuelOut => none

/-- An interpretation in which every unit and callback is side-effect free. -/
def pureInterp : Interp :=
  { unitAct := fun _ => {}, cbAct := fun _ => {}, pc := fun _ => 0 }

/-- A loaded file as seen by `execute`: only whether its bytecode `data`
payload is present matters to the checked preconditions. -/
structure SFile where
  data : Bool
deriving DecidableEq, Repr

/-- Observable steps of `execute` (VM.js:120-159), per target-file index:
construction of the Execution Unit (`new shine.Function(...)`), the
`executing` notification, and the synchronous run (`thread.call()`). -/
inductive ExecEvent
| unitConstructed (i : Nat)
| executing (i : Nat)
| ran (i : Nat)
deriving DecidableEq, Repr

/-- The two precondition faults of `execute`: `'No files loaded.'` and
`'Tried to execute file before data loaded.'`. -/
inductive ExecFault
| noFiles
| dataNotLoaded
deriving DecidableEq, Repr

/-- The per-file loop of `execute` (VM.js:130-158), without a coroutine
configuration (the coroutine-wrapped branch drives external collaborators).
For each file in order: if its data payload is absent the loop throws
`dataNotLoaded` at once; otherwise a unit is constructed, the `executing`
notification fires and the unit is invoked synchronously. -/
def executeFiles : Nat → List SFile → List ExecEvent × Option ExecFault
| _, [] => ([], none)
| i, f :: rest =>
  if f.data then
    let r := executeFiles (i+1) rest
    (ExecEvent.unitConstructed i :: ExecEvent.executing i :: ExecEvent.ran i :: r.1, r.2)
  else ([], some ExecFault.dataNotLoaded)

/-- The target list of `execute`: the given file if present, otherwise every
previously loaded file in load order. -/
def targetFiles (fileArg : Option SFile) (loaded : List SFile) : List SFile :=
  match fileArg with
  | some f => [f]
  | none => loaded

/-- `shine.VM.prototype.execute` (VM.js:120-159): throws `noFiles` when the
target list is empty, then runs the per-file loop. The maintenance of the
loaded-file collection itself is outside this file; per the spec's data
model it is an ordered collection, passed here as `loaded`. -/
def execute (fileArg : Option SFile) (loaded : List SFile) :
    List ExecEvent × Option ExecFault :=
  let files := targetFiles fileArg loaded
  if files.length = 0 then ([], some ExecFault.noFiles)
  else executeFiles 0 files

/-- The events produced by `k` successfully executed files starting at
index `i`. -/
def evPrefix : Nat → Nat → List ExecEvent
| _, 0 => []
| i, k+1 =>
  ExecEvent.unitConstructed i :: ExecEvent.executing i :: ExecEvent.ran i :: evPrefix (i+1) k

/-- A JS value as passed for `load`'s `execute` parameter. -/
inductive JsVal
| undef
| nullv
| boolean (b : Bool)
| num (n : Int)
| str (s : String)
| obj (id : Nat)
deriving DecidableEq, Repr

/-- JS truthiness of a value. -/
def truthy : JsVal → Bool
| JsVal.undef => false
| JsVal.nullv => false
| JsVal.boolean b => b
| JsVal.num n => decide (n ≠ 0)
| JsVal.str s => decide (s ≠ "")
| JsVal.obj _ => true

/-- Observable actions of `load`'s success callback. -/
inductive LoadEvent
| fileLoaded (file : Nat)
| executeCalled (file : Nat)
deriving DecidableEq, Repr

/-- The success path of `shine.VM.prototype.load`'s callback (VM.js:104-109):
triggers the `file-loaded` notification and then, when
`execute || execute === undefined` holds, calls `execute` on the file. -/
def loadCallback (executeArg : JsVal) (file : Nat) : List LoadEvent :=
  LoadEvent.fileLoaded file ::
    (if truthy executeArg || executeArg = JsVal.undef then [LoadEvent.executeCalled file]
     else [])

/-- The process-wide pools shared by every VM in the host page:
`shine.Closure._graveyard`, `shine.Closure._current` and
`shine.Coroutine._graveyard` (VM.js:267-269). -/
structure Pools where
  closureGraveyard : List Nat
  closureCurrent : Option Nat
  coroutineGraveyard : List Nat
deriving DecidableEq, Repr

/-- The VM-owned references touched by `dispose` (VM.js:249-270), each
modelled as present or already deleted; `fileManager` records whether
`this.fileManager` is still defined. -/
structure VMOwned where
  files : Option (List Nat)
  thread : Option Nat
  globalsRef : Option Nat
  envRef : Option Nat
  coroutineStack : Option (List Nat)
  fileManager : Bool
deriving DecidableEq, Repr

/-- The fault raised by `dispose` when `this.fileManager` has already been
deleted: `this.fileManager.dispose()` reads `dispose` off `undefined`. -/
inductive DisposeFault
| fileManagerUndefined
deriving DecidableEq, Repr

/-- Pools with every shared record cleared. -/
def emptyPools : Pools :=
  { closureGraveyard := [], closureCurrent := none, coroutineGraveyard := [] }

/-- `shine.VM.prototype.dispose` (VM.js:249-270): disposes files and the
current thread (external calls), deletes the VM-owned references, then calls
`this.fileManager.dispose()` — a TypeError when `fileManager` was already
deleted — deletes it, and finally clears the process-wide pools. -/
def dispose (vm : VMOwned) (_pools : Pools) : Except DisposeFault (VMOwned × Pools) :=
  let vm1 : VMOwned :=
    { files := none, thread := none, globalsRef := none, envRef := none,
      coroutineStack := none, fileManager := vm.fileManager }
  if vm.fileManager then
    Except.ok ({ vm1 with fileManager := false }, emptyPools)
  else
    Except.error DisposeFault.fileManagerUndefined

/-- A primitive (non-reference) guest value. -/
inductive Prim
| num (n : Int)
| str (s : String)
| boolv (b : Bool)
| nil
deriving DecidableEq, Repr

/-- A guest value stored in a table slot: a primitive, a reference to a
table on the heap, a native function bound to the VM by `_bindLib`, or an
opaque host value supplied through the environment map. -/
inductive GValue
| prim (p : Prim)
| tableRef (a : Nat)
| boundFn (id : Nat)
| hostObj (id : Nat)
deriving DecidableEq, Repr

/-- A table object: an ordered association of string keys to values
(JS property insertion order). -/
abbrev TableObj := List (String × GValue)

/-- The heap of allocated table objects; a table's address is its index. -/
abbrev Heap := List TableObj

/-- Property read on a table object (first binding of the key wins; `tset`
keeps keys unique in place). -/
def tget : TableObj → String → Option GValue
| [], _ => none
| (k0, v) :: rest, k => if k0 = k then some v else tget rest k

/-- Property write on a table object: updates an existing key in place
(keeping its position, as JS does) or appends a new one. -/
def tset : TableObj → String → GValue → TableObj
| [], k, v => [(k, v)]
| (k0, v0) :: rest, k, v =>
  if k0 = k then (k, v) :: rest else (k0, v0) :: tset rest k v

/-- Write a property of the table at address `a` on the heap. -/
def heapSet : Heap → Nat → String → GValue → Heap
| [], _, _, _ => []
| t :: rest, 0, k, v => tset t k v :: rest
| t :: rest, a+1, k, v => t :: heapSet rest a k v

/-- Allocate a fresh table object, returning its address. -/
def alloc (h : Heap) (t : TableObj) : Nat × Heap := (h.length, h ++ [t])

/-- Read a property of the table at address `a`. -/
def readField (h : Heap) (a : Nat) (k : String) : Option GValue :=
  match h[a]? with
  | some t => tget t k
  | none => none

/-- A description of one entry of the standard-library description
`shine.lib`, discriminated exactly as `_bindLib` does (VM.js:66-90):
a `shine.Table` literal (copied via the value-object conversion utility),
a plain nested object (recursively bound), a native function (wrapped into
a bound adapter), or anything else (copied as-is). -/
inductive LibEntry
| tbl (fields : List (String × Prim))
| nested (entries : List (String × LibEntry))
| fn (id : Nat)
| scalar (p : Prim)
deriving Repr

/-- Whether a library entry is bound to a `shine.Table` instance by
`_bindLib` (both table literals and nested plain objects are). -/
def tableLike : LibEntry → Bool
| LibEntry.tbl _ => true
| LibEntry.nested _ => true
| LibEntry.fn _ => false
| LibEntry.scalar _ => false

mutual

/-- One entry of `_bindLib`'s copy loop (VM.js:69-87): a table literal is
copied into a freshly allocated table, a nested object is recursively
bound, a function becomes a bound adapter, everything else is copied. -/
def bindEntry : LibEntry → Heap → GValue × Heap
| LibEntry.tbl fields, h =>
  let r := alloc h (List.map (fun kp => (kp.1, GValue.prim kp.2)) fields)
  (GValue.tableRef r.1, r.2)
| LibEntry.nested es, h =>
  let r := bindEntries es h
  let r2 := alloc r.2 r.1
  (GValue.tableRef r2.1, r2.2)
| LibEntry.fn id, h => (GValue.boundFn id, h)
| LibEntry.scalar p, h => (GValue.prim p, h)

/-- `_bindLib`'s iteration over the entries of a library description, in
property order. -/
def bindEntries : List (String × LibEntry) → Heap → TableObj × Heap
| [], h => ([], h)
| (k, e) :: rest, h =>
  let r := bindEntry e h
  let r2 := bindEntries rest r.2
  ((k, r.1) :: r2.1, r2.2)

end

/-- `shine.VM.prototype._bindLib` (VM.js:66-90): copies the library
description into a fresh table object. -/
def bindLib (lib : List (String × LibEntry)) (h : Heap) : Nat × Heap :=
  let r := bindEntries lib h
  alloc r.2 r.1

/-- Resolve `globals['package'].loaded`: the address of the `loaded` table,
when `globals.package` is a table with a table-valued `loaded` field. -/
def loadedAddr (h : Heap) (g : Nat) : Option Nat :=
  match readField h g "package" with
  | some (GValue.tableRef p) =>
    match readField h p "loaded" with
    | some (GValue.tableRef l) => some l
    | _ => none
  | _ => none

/-- The registration loop of `_resetGlobals` (VM.js:53): for every
table-valued global `i`, `this._globals['package'].loaded[i] =
this._globals[i]`, resolving `package.loaded` afresh on each iteration;
`none` models the TypeError raised when that path does not resolve. -/
def regFields (g : Nat) : List (String × GValue) → Heap → Option Heap
| [], h => some h
| (k, v) :: rest, h =>
  match v with
  | GValue.tableRef _ =>
    match loadedAddr h g with
    | some l => regFields g rest (heapSet h l k v)
    | none => none
  | _ => regFields g rest h

/-- Iterates the fields of the globals table for the registration loop. -/
def registerLoaded (h : Heap) (g : Nat) : Option Heap :=
  match h[g]? with
  | some fs => regFields g fs h
  | none => none

/-- The host-environment overlay of `_resetGlobals` (VM.js:57): every own
entry of `env` is written directly onto the globals table, in order. -/
def envOverlay (g : Nat) (env : List (String × GValue)) (h : Heap) : Heap :=
  List.foldl (fun hh kv => heapSet hh g kv.1 kv.2) h env

/-- `shine.VM.prototype._resetGlobals` (VM.js:49-58): binds the standard
library into a fresh globals table, registers every table-valued global
under `package.loaded`, sets `package.loaded._G` to the globals table
itself, and finally overlays the host environment map. `none` models the
TypeError raised when `package.loaded` does not resolve. -/
def resetGlobals (lib : List (String × LibEntry)) (env : List (String × GValue))
    (h0 : Heap) : Option (Nat × Heap) :=
  let r := bindLib lib h0
  match registerLoaded r.2 r.1 with
  | none => none
  | some h2 =>
    match loadedAddr h2 r.1 with
    | none => none
    | some l =>
      let h3 := heapSet h2 l "_G" (GValue.tableRef r.1)
      some (r.1, envOverlay r.1 env h3)

/-- `shine.VM.prototype.setGlobal` (VM.js:169-171). -/
def setGlobal (h : Heap) (g : Nat) (k : String) (v : GValue) : Heap :=
  heapSet h g k v

/-- `shine.VM.prototype.getGlobal` (VM.js:181-183). -/
def getGlobal (h : Heap) (g : Nat) (k : String) : Option GValue :=
  readField h g k

/-- A value holds only table references below `n`. -/
def valBelow (n : Nat) : GValue → Prop
| GValue.tableRef a => a < n
| _ => True

/-- A table object holds only table references below `n`. -/
def refsBelow (n : Nat) (t : TableObj) : Prop :=
  ∀ kv, kv ∈ t → valBelow n kv.2

/-- Every table on the heap references only tables allocated before it.
`_bindLib` establishes this because children are allocated before their
parent. -/
def heapDown (h : Heap) : Prop :=
  ∀ i t, h[i]? = some t → refsBelow i t

/-- The shape of the value `_bindLib` produces for a library entry. -/
def valShape : LibEntry → GValue → Prop
| LibEntry.tbl _, v => ∃ a, v = GValue.tableRef a
| LibEntry.nested _, v => ∃ a, v = GValue.tableRef a
| LibEntry.fn id, v => v = GValue.boundFn id
| LibEntry.scalar p, v => v = GValue.prim p

/-- One level of structure of the table `_bindLib` allocates for a nested
library entry: its keys mirror the description and (for unambiguous keys)
each table-like sub-entry is bound to a table reference. -/
def oneLevel : LibEntry → TableObj → Prop
| LibEntry.nested es, t =>
  List.map Prod.fst t = List.map Prod.fst es ∧
  ((List.map Prod.fst es).Nodup →
    ∀ k e2, (k, e2) ∈ es → tableLike e2 = true →
      ∃ b, tget t k = some (GValue.tableRef b))
| _, _ => True

/-- The writes the registration loop performs on the `loaded` table: one
per table-valued field of the globals table, in field order. -/
def regWrites : List (String × GValue) → TableObj → TableObj
| [], t => t
| (k, v) :: rest, t =>
  match v with
  | GValue.tableRef _ => regWrites rest (tset t k v)
  | _ => regWrites rest t

/-- The `package.loaded` path of the globals table resolves through table
address `p` to the loaded table at address `l`. -/
def resolvesTo (h : Heap) (g p l : Nat) : Prop :=
  readField h g "package" = some (GValue.tableRef p) ∧
  readField h p "loaded" = some (GValue.tableRef l)

/-- The invariant claimed for `package.loaded` after `_resetGlobals`:
`package.loaded._G` references the globals table itself, and every
table-like top-level library entry is reachable under its own name both as
a global and as a `package.loaded` entry. -/
def loadedInv (lib : List (String × LibEntry)) (h : Heap) (g : Nat) : Prop :=
  ∃ p l, p ≠ g ∧ l ≠ g ∧ l ≠ p ∧
    resolvesTo h g p l ∧
    loadedAddr h g = some l ∧
    readField h l "_G" = some (GValue.tableRef g) ∧
    ∀ k e, (k, e) ∈ lib → tableLike e = true →
      ∃ a, readField h g k = some (GValue.tableRef a) ∧
        readField h l k = some (GValue.tableRef a)

/-- The dual-reachability property exactly as the specification claims it:
every table-like top-level library entry is simultaneously reachable as a
global and as a `package.loaded` entry under its own name. -/
def dualReach (lib : List (String × LibEntry)) (h : Heap) (g : Nat) : Prop :=
  ∀ k e, (k, e) ∈ lib → tableLike e = true →
    ∃ a, readField h g k = some (GValue.tableRef a) ∧
      ∃ l, loadedAddr h g = some l ∧ readField h l k = some (GValue.tableRef a)

/-- Interpretation raising a native error from unit 0, used to exercise the
host-fault wrapping path on a concrete input. -/
def faultInterp : Interp :=
  { unitAct := fun _ => { raises := some (JsThrown.jsErr "boom" (some "l1\nl2")) }
    cbAct := fun _ => {}
    pc := fun _ => 5 }

/-- Interpretation in which callback 0 enqueues callback 1 while running,
used to exercise the drain's FIFO order on a concrete input. -/
def chainInterp : Interp :=
  { unitAct := fun _ => {}
    cbAct := fun c => if c = 0 then { enq := [1] } else {}
    pc := fun _ => 0 }

theorem jsPop_concat (xs : List Nat) (u : Nat) : jsPop (xs ++ [u]) = some (xs, u) := by
  induction xs with
  | nil => rfl
  | cons x xs ih =>
    cases xs with
    | nil => rfl
    | cons y ys =>
      show jsPop (x :: ((y :: ys) ++ [u])) = some (x :: y :: ys, u)
      rw [List.cons_append]
      simp only [jsPop]
      rw [List.cons_append] at ih
      rw [ih]

theorem drain_nil (I : Interp) (fuel : Nat) (st : VMState) (h : st.callbackQueue = []) :
    drain I fuel st = RResult.ok st := by
  cases fuel <;> simp [drain, h]

theorem drain_ok_spec (I : Interp) : ∀ (fuel : Nat) (st st' : VMState),
    drain I fuel st = RResult.ok st' →
    ∃ ord, drainOrder (fun c => (I.cbAct c).enq) fuel st.callbackQueue = some ord ∧
      st'.callbackQueue = [] ∧
      st'.log = st.log ++ List.map REvent.ranCallback ord ∧
      st'.resumeStack = st.resumeStack ++ (List.map (fun c => (I.cbAct c).pushR) ord).flatten ∧
      st'.status = List.foldl (fun s c =>
        match (I.cbAct c).setStatus with | some v => v | none => s) st.status ord ∧
      st'.checkPending = st.checkPending := by
  intro fuel
  induction fuel with
  | zero =>
    intro st st' h
    cases hq : st.callbackQueue with
    | nil =>
      simp only [drain, hq, RResult.ok.injEq] at h
      subst h
      exact ⟨[], rfl, hq, by simp, by simp, rfl, rfl⟩
    | cons c rest => simp [drain, hq] at h
  | succ fuel ih =>
    intro st st' h
    cases hq : st.callbackQueue with
    | nil =>
      simp only [drain, hq, RResult.ok.injEq] at h
      subst h
      exact ⟨[], rfl, hq, by simp, by simp, rfl, rfl⟩
    | cons c rest =>
      simp only [drain, hq] at h
      cases hr : (I.cbAct c).raises with
      | some e => rw [hr] at h; cases h
      | none =>
        rw [hr] at h
        obtain ⟨ord', h1, h2, h3, h4, h5, h6⟩ := ih _ _ h
        refine ⟨c :: ord', ?_, h2, ?_, ?_, ?_, ?_⟩
        · simp only [drainOrder]
          simp only [applyRun] at h1
          rw [h1]
        · simp only [applyRun] at h3
          rw [h3]; simp
        · simp only [applyRun] at h4
          rw [h4]; simp
        · simp only [applyRun] at h5
          rw [h5]; simp
        · simp only [applyRun] at h6
          rw [h6]

theorem drain_stateOf_status (I : Interp) (P : VMStatus → Prop)
    (hc : ∀ c v, (I.cbAct c).setStatus = some v → P v) :
    ∀ (fuel : Nat) (st st' : VMState),
      stateOf (drain I fuel st) = some st' → P st.status → P st'.status := by
  intro fuel
  induction fuel with
  | zero =>
    intro st st' h hst
    cases hq : st.callbackQueue with
    | nil =>
      simp only [drain, hq, stateOf, Option.some.injEq] at h
      exact h ▸ hst
    | cons c rest => simp [drain, hq, stateOf] at h
  | succ fuel ih =>
    intro st st' h hst
    cases hq : st.callbackQueue with
    | nil =>
      simp only [drain, hq, stateOf, Option.some.injEq] at h
      exact h ▸ hst
    | cons c rest =>
      simp only [drain, hq] at h
      have hst1 : P (applyRun (I.cbAct c) (REvent.ranCallback c)
          { st with callbackQueue := rest }).status := by
        simp only [applyRun]
        cases hs : (I.cbAct c).setStatus with
        | some v => exact hc c v hs
        | none => exact hst
      cases hr : (I.cbAct c).raises with
      | some e =>
        rw [hr] at h
        simp only [stateOf, Option.some.injEq] at h
        exact h ▸ hst1
      | none =>
        rw [hr] at h
        exact ih _ _ h hst1

theorem drain_ok_of_no_raise (I : Interp) (hc : ∀ c, (I.cbAct c).raises = none) :
    ∀ (fuel : Nat) (st st' : VMState),
      stateOf (drain I fuel st) = some st' → drain I fuel st = RResult.ok st' := by
  intro fuel
  induction fuel with
  | zero =>
    intro st st' h
    cases hq : st.callbackQueue with
    | nil =>
      simp only [drain, hq, stateOf, Option.some.injEq] at h ⊢
      rw [h]
    | cons c rest => simp [drain, hq, stateOf] at h
  | succ fuel ih =>
    intro st st' h
    cases hq : st.callbackQueue with
    | nil =>
      simp only [drain, hq, stateOf, Option.some.injEq] at h ⊢
      rw [h]
    | cons c rest =>
      simp only [drain, hq] at h ⊢
      rw [hc c] at h ⊢
      exact ih _ _ h

theorem resume_status_pres (I : Interp) (P : VMStatus → Prop)
    (hu : ∀ u v, (I.unitAct u).setStatus = some v → P v)
    (hc : ∀ c v, (I.cbAct c).setStatus = some v → P v)
    (fuel : Nat) (st st' : VMState)
    (h : stateOf (resume I fuel st) = some st') (h0 : P VMStatus.resuming) :
    P st'.status := by
  simp only [resume] at h
  cases hp : jsPop st.resumeStack with
  | none =>
    rw [hp] at h
    exact drain_stateOf_status I P hc fuel _ st' h h0
  | some p =>
    obtain ⟨front, u⟩ := p
    rw [hp] at h
    simp only at h
    have hst1 : P (applyRun (I.unitAct u) (REvent.ranUnit u)
        { st with status := VMStatus.resuming, resumeStack := front }).status := by
      simp only [applyRun]
      cases hs : (I.unitAct u).setStatus with
      | some v => exact hu u v hs
      | none => exact h0
    cases hr : (I.unitAct u).raises with
    | some e =>
      rw [hr] at h
      simp only [stateOf, Option.some.injEq] at h
      exact h ▸ hst1
    | none =>
      rw [hr] at h
      exact drain_stateOf_status I P hc fuel _ st' h hst1

/-- C1: `suspend()` sets the VM status to SUSPENDING immediately and schedules
a deferred check that sets status to SUSPENDED only if the status is still
SUSPENDING when the check runs; consequently, in every execution in which
`resume()` is called after `suspend()` and before the deferred check runs
(and the re-driven work does not itself set the status back to SUSPENDING or
SUSPENDED), the check never leaves the status at SUSPENDING and the status
never becomes SUSPENDED. -/
theorem vm_suspend_resume_race (I : Interp) (fuel : Nat) (st st' : VMState)
    (hu : ∀ u, (I.unitAct u).setStatus ≠ some VMStatus.suspending ∧
      (I.unitAct u).setStatus ≠ some VMStatus.suspended)
    (hc : ∀ c, (I.cbAct c).setStatus ≠ some VMStatus.suspending ∧
      (I.cbAct c).setStatus ≠ some VMStatus.suspended)
    (hres : stateOf (resume I fuel (suspend st)) = some st') :
    (suspend st).status = VMStatus.suspending ∧
    (suspend st).checkPending = true ∧
    (∀ s : VMState, (fireCheck s).status =
      if s.status = VMStatus.suspending then VMStatus.suspended else s.status) ∧
    (fireCheck st').status ≠ VMStatus.suspending ∧
    (fireCheck st').status ≠ VMStatus.suspended := by
  have hP : st'.status ≠ VMStatus.suspending ∧ st'.status ≠ VMStatus.suspended := by
    refine resume_status_pres I
      (fun v => v ≠ VMStatus.suspending ∧ v ≠ VMStatus.suspended) ?_ ?_ fuel _ st' hres
      (by exact ⟨by simp, by simp⟩)
    · intro u v hv
      constructor
      · intro hvv; exact (hu u).1 (hvv ▸ hv)
      · intro hvv; exact (hu u).2 (hvv ▸ hv)
    · intro c v hv
      constructor
      · intro hvv; exact (hc c).1 (hvv ▸ hv)
      · intro hvv; exact (hc c).2 (hvv ▸ hv)
  refine ⟨rfl, rfl, fun s => rfl, ?_, ?_⟩
  · simp only [fireCheck]
    rw [if_neg hP.1]
    exact hP.1
  · simp only [fireCheck]
    rw [if_neg hP.1]
    exact hP.2

/-- Witness for C1 at a concrete input: a suspend immediately followed by a
resume (side-effect-free units) and then the deferred check leaves the
status neither SUSPENDING nor SUSPENDED. -/
theorem vm_suspend_resume_race_witness :
    (fireCheck ⟨VMStatus.resuming, [], [], true, []⟩).status ≠ VMStatus.suspending ∧
    (fireCheck ⟨VMStatus.resuming, [], [], true, []⟩).status ≠ VMStatus.suspended := by
  have h := vm_suspend_resume_race pureInterp 1 ⟨VMStatus.running, [], [], false, []⟩
    ⟨VMStatus.resuming, [], [], true, []⟩
    (fun u => ⟨by simp [pureInterp], by simp [pureInterp]⟩)
    (fun c => ⟨by simp [pureInterp], by simp [pureInterp]⟩)
    (by rfl)
  exact ⟨h.2.2.2.1, h.2.2.2.2⟩

/-- C10: `resume()` sets the VM status to RESUMING on entry and never sets it
back to RUNNING: when neither the re-driven unit nor any drained callback
modifies the status field, the status still equals RESUMING whenever
`resume()` hands back a state, whether or not a unit was popped. -/
theorem resume_status_resuming (I : Interp) (fuel : Nat) (st st' : VMState)
    (hu : ∀ u, (I.unitAct u).setStatus = none)
    (hc : ∀ c, (I.cbAct c).setStatus = none)
    (hres : stateOf (resume I fuel st) = some st') :
    st'.status = VMStatus.resuming := by
  refine resume_status_pres I (fun v => v = VMStatus.resuming) ?_ ?_ fuel st st' hres rfl
  · intro u v hv
    rw [hu u] at hv
    cases hv
  · intro c v hv
    rw [hc c] at hv
    cases hv

/-- Witness for C10 at a concrete input: resuming a one-unit stack with a
side-effect-free unit leaves the status at RESUMING. -/
theorem resume_status_resuming_witness :
    (⟨VMStatus.resuming, [], [], false, [REvent.ranUnit 3]⟩ : VMState).status =
      VMStatus.resuming := by
  exact resume_status_resuming pureInterp 1 ⟨VMStatus.running, [3], [], false, []⟩
    ⟨VMStatus.resuming, [], [], false, [REvent.ranUnit 3]⟩
    (fun u => rfl) (fun c => rfl) (by rfl)

theorem jsPop_some_concat (l front : List Nat) (u : Nat)
    (h : jsPop l = some (front, u)) : l = front ++ [u] := by
  rcases List.eq_nil_or_concat l with hnil | ⟨L, b, hcat⟩
  · rw [hnil] at h; cases h
  · rw [List.concat_eq_append] at hcat
    rw [hcat, jsPop_concat] at h
    obtain ⟨h1, h2⟩ := Prod.mk.injEq .. ▸ Option.some.injEq .. ▸ h
    rw [hcat]
    cases h
    rfl

theorem jsPop_none_nil (l : List Nat) (h : jsPop l = none) : l = [] := by
  rcases List.eq_nil_or_concat l with hnil | ⟨L, b, hcat⟩
  · exact hnil
  · rw [List.concat_eq_append] at hcat
    rw [hcat, jsPop_concat] at h
    cases h

theorem applyRun_default (ev : REvent) (st : VMState) :
    applyRun {} ev st = { st with log := st.log ++ [ev] } := by
  simp [applyRun]

theorem flatten_eq_nil_of_all_nil (f : Nat → List Nat) (ord : List Nat)
    (h : ∀ c, f c = []) : (List.map f ord).flatten = [] := by
  induction ord with
  | nil => rfl
  | cons c rest ih => simp [h, ih]

theorem resume_pure_step (I : Interp) (fuel : Nat) (st : VMState) (xs : List Nat)
    (u : Nat) (hstack : st.resumeStack = xs ++ [u]) (hact : I.unitAct u = {})
    (hqueue : st.callbackQueue = []) :
    resume I fuel st = RResult.ok
      { st with
        status := VMStatus.resuming
        resumeStack := xs
        log := st.log ++ [REvent.ranUnit u] } := by
  simp only [resume]
  rw [hstack, jsPop_concat]
  simp only [hact, applyRun_default]
  rw [drain_nil _ _ _ (by simpa using hqueue)]

/-- C2: each call to `resume()` removes exactly one unit from the resume
stack when it is non-empty — always the most recently pushed unit, so N
consecutive `resume()` calls after N suspensions re-drive the units in
strict reverse-suspension order — and with an empty resume stack it removes
nothing and returns without faulting. -/
theorem resume_pop_exactly_one :
    (∀ (I : Interp) (fuel : Nat) (st st' : VMState) (xs : List Nat) (u : Nat),
      st.resumeStack = xs ++ [u] →
      (I.unitAct u).pushR = [] → (I.unitAct u).raises = none →
      (∀ c, (I.cbAct c).pushR = [] ∧ (I.cbAct c).raises = none) →
      stateOf (resume I fuel st) = some st' →
      st'.resumeStack = xs ∧
        ∃ cs, st'.log = st.log ++ REvent.ranUnit u :: List.map REvent.ranCallback cs) ∧
    (∀ (I : Interp) (fuel : Nat) (us : List Nat),
      (∀ u ∈ us, I.unitAct u = {}) →
      ∀ st : VMState, st.resumeStack = List.foldl jsPush [] us → st.callbackQueue = [] →
      ∃ st', resumeIter I fuel us.length st = RResult.ok st' ∧
        st'.resumeStack = [] ∧
        st'.log = st.log ++ List.map REvent.ranUnit us.reverse) ∧
    (∀ (I : Interp) (fuel : Nat) (st : VMState),
      st.resumeStack = [] → st.callbackQueue = [] →
      resume I fuel st = RResult.ok { st with status := VMStatus.resuming }) := by
  refine ⟨?_, ?_, ?_⟩
  · intro I fuel st st' xs u hstack hpush hraise hcb hres
    simp only [resume] at hres
    rw [hstack, jsPop_concat] at hres
    simp only at hres
    rw [hraise] at hres
    have hok := drain_ok_of_no_raise I (fun c => (hcb c).2) fuel _ st' hres
    obtain ⟨ord, h1, h2, h3, h4, h5, h6⟩ := drain_ok_spec I fuel _ st' hok
    constructor
    · rw [h4]
      simp only [applyRun, hpush, List.append_nil]
      rw [flatten_eq_nil_of_all_nil _ ord (fun c => (hcb c).1)]
      simp
    · refine ⟨ord, ?_⟩
      rw [h3]
      simp [applyRun]
  · intro I fuel us
    induction us using List.reverseRecOn with
    | nil =>
      intro _ st hstack hqueue
      exact ⟨st, rfl, hstack, by simp⟩
    | append_singleton ys u ih =>
      intro hpure st hstack hqueue
      have hfold : List.foldl jsPush [] (ys ++ [u]) = List.foldl jsPush [] ys ++ [u] := by
        rw [List.foldl_append]
        rfl
      rw [hfold] at hstack
      have hstep := resume_pure_step I fuel st (List.foldl jsPush [] ys) u hstack
        (hpure u (by simp)) hqueue
      obtain ⟨st', hiter, hstk, hlog⟩ := ih (fun v hv => hpure v (by simp [hv]))
        { st with
          status := VMStatus.resuming
          resumeStack := List.foldl jsPush [] ys
          log := st.log ++ [REvent.ranUnit u] } rfl hqueue
      refine ⟨st', ?_, hstk, ?_⟩
      · have hlen : (ys ++ [u]).length = ys.length + 1 := by simp
        rw [hlen]
        simp only [resumeIter]
        rw [hstep]
        exact hiter
      · rw [hlog]
        simp
  · intro I fuel st hstack hqueue
    simp only [resume]
    rw [hstack]
    simp only [jsPop]
    exact drain_nil I fuel _ (by simpa using hqueue)

/-- Witness for C2 at concrete inputs: popping removes exactly the most
recently pushed unit; two resumes after two suspensions re-drive the units
in reverse order; an empty-stack resume returns normally. -/
theorem resume_pop_exactly_one_witness :
    ((⟨VMStatus.resuming, [7], [], false, [REvent.ranUnit 9]⟩ : VMState).resumeStack = [7] ∧
      ∃ cs, (⟨VMStatus.resuming, [7], [], false, [REvent.ranUnit 9]⟩ : VMState).log =
        ([] : List REvent) ++ REvent.ranUnit 9 :: List.map REvent.ranCallback cs) ∧
    (∃ st', resumeIter pureInterp 1 [5, 7].length
        ⟨VMStatus.running, [5, 7], [], false, []⟩ = RResult.ok st' ∧
      st'.resumeStack = [] ∧
      st'.log = ([] : List REvent) ++ List.map REvent.ranUnit [5, 7].reverse) ∧
    resume pureInterp 1 ⟨VMStatus.running, [], [], false, []⟩ =
      RResult.ok ⟨VMStatus.resuming, [], [], false, []⟩ := by
  refine ⟨?_, ?_, ?_⟩
  · exact resume_pop_exactly_one.1 pureInterp 1 ⟨VMStatus.running, [7, 9], [], false, []⟩
      ⟨VMStatus.resuming, [7], [], false, [REvent.ranUnit 9]⟩ [7] 9 rfl rfl rfl
      (fun c => ⟨rfl, rfl⟩) (by rfl)
  · exact resume_pop_exactly_one.2.1 pureInterp 1 [5, 7] (fun u _ => rfl)
      ⟨VMStatus.running, [5, 7], [], false, []⟩ rfl rfl
  · exact resume_pop_exactly_one.2.2 pureInterp 1
      ⟨VMStatus.running, [], [], false, []⟩ rfl rfl

/-- C3: whenever `resume()` returns normally, every entry of the callback
queue has been removed and invoked in strict first-in-first-out order —
including callbacks enqueued by earlier callbacks during the drain — and
the drain happens after the popped unit (if any) has been re-driven. -/
theorem resume_drains_callbacks_fifo (I : Interp) (fuel : Nat) (st st' : VMState)
    (hok : resume I fuel st = RResult.ok st') :
    st'.callbackQueue = [] ∧
    ∃ pre q0 ord,
      ((st.resumeStack = [] ∧ pre = ([] : List REvent) ∧ q0 = st.callbackQueue) ∨
        (∃ xs u, st.resumeStack = xs ++ [u] ∧ pre = [REvent.ranUnit u] ∧
          q0 = st.callbackQueue ++ (I.unitAct u).enq)) ∧
      drainOrder (fun c => (I.cbAct c).enq) fuel q0 = some ord ∧
      st'.log = st.log ++ pre ++ List.map REvent.ranCallback ord := by
  simp only [resume] at hok
  cases hp : jsPop st.resumeStack with
  | none =>
    rw [hp] at hok
    obtain ⟨ord, h1, h2, h3, h4, h5, h6⟩ := drain_ok_spec I fuel _ st' hok
    refine ⟨h2, [], st.callbackQueue, ord,
      Or.inl ⟨jsPop_none_nil _ hp, rfl, rfl⟩, h1, ?_⟩
    rw [h3]
    simp
  | some p =>
    obtain ⟨front, u⟩ := p
    rw [hp] at hok
    simp only at hok
    cases hr : (I.unitAct u).raises with
    | some e => rw [hr] at hok; cases hok
    | none =>
      rw [hr] at hok
      obtain ⟨ord, h1, h2, h3, h4, h5, h6⟩ := drain_ok_spec I fuel _ st' hok
      refine ⟨h2, [REvent.ranUnit u], st.callbackQueue ++ (I.unitAct u).enq, ord,
        Or.inr ⟨front, u, jsPop_some_concat _ _ _ hp, rfl, rfl⟩, ?_, ?_⟩
      · simpa [applyRun] using h1
      · rw [h3]
        simp [applyRun]

/-- Witness for C3 at a concrete input: draining a queue whose first
callback enqueues another invokes both, in FIFO order, after the popped
unit. -/
theorem resume_drains_callbacks_fifo_witness :
    (⟨VMStatus.resuming, [], [], false,
        [REvent.ranUnit 4, REvent.ranCallback 0, REvent.ranCallback 1]⟩ :
      VMState).callbackQueue = [] ∧
    ∃ pre q0 ord,
      ((([4] : List Nat) = [] ∧ pre = ([] : List REvent) ∧ q0 = [0]) ∨
        (∃ xs u, ([4] : List Nat) = xs ++ [u] ∧ pre = [REvent.ranUnit u] ∧
          q0 = [0] ++ (chainInterp.unitAct u).enq)) ∧
      drainOrder (fun c => (chainInterp.cbAct c).enq) 2 q0 = some ord ∧
      (⟨VMStatus.resuming, [], [], false,
          [REvent.ranUnit 4, REvent.ranCallback 0, REvent.ranCallback 1]⟩ :
        VMState).log = ([] : List REvent) ++ pre ++ List.map REvent.ranCallback ord := by
  exact resume_drains_callbacks_fifo chainInterp 2
    ⟨VMStatus.running, [4], [0], false, []⟩
    ⟨VMStatus.resuming, [], [], false,
      [REvent.ranUnit 4, REvent.ranCallback 0, REvent.ranCallback 1]⟩ (by rfl)

/-- C4: when re-driving a popped unit raises a value that is not already a
structured error, `resume()` wraps it into a structured error whose message
prefixes the native one, whose native diagnostic text is preserved and split
into a line-oriented trace, appends a frame referencing the offending unit
and a program counter one less than the unit's last recorded `_pc`, and
hands the error to the normalizer rather than swallowing it. -/
theorem resume_host_fault_wrapped (I : Interp) (fuel : Nat) (st : VMState)
    (xs : List Nat) (u : Nat) (msg : String) (stk : Option String)
    (hstack : st.resumeStack = xs ++ [u])
    (hraise : (I.unitAct u).raises = some (JsThrown.jsErr msg stk)) :
    ∃ e st', resume I fuel st = RResult.err e st' ∧
      e.message = "Error in host call: " ++ msg ∧
      e.stack = stk.getD "" ∧
      e.luaStack = some (List.map LuaEntry.line (jsSplitNewline (stk.getD "")) ++
        [LuaEntry.frame u (I.pc u - 1)]) := by
  simp only [resume]
  rw [hstack, jsPop_concat]
  simp only
  rw [hraise]
  refine ⟨wrapResumeError u (I.pc u) (JsThrown.jsErr msg stk), _, rfl, ?_, ?_, ?_⟩ <;>
    cases stk <;> simp [wrapResumeError]

/-- Witness for C4 at a concrete input: a native error with a two-line stack
raised by unit 0 (whose `_pc` is 5) is wrapped with the prefixed message,
the two stack lines, and a final frame `[0, 4]`. -/
theorem resume_host_fault_wrapped_witness :
    ∃ e st', resume faultInterp 1 ⟨VMStatus.running, [0], [], false, []⟩ =
        RResult.err e st' ∧
      e.message = "Error in host call: " ++ "boom" ∧
      e.stack = (some "l1\nl2").getD "" ∧
      e.luaStack = some (List.map LuaEntry.line (jsSplitNewline ((some "l1\nl2").getD "")) ++
        [LuaEntry.frame 0 (faultInterp.pc 0 - 1)]) := by
  exact resume_host_fault_wrapped faultInterp 1 ⟨VMStatus.running, [0], [], false, []⟩
    [] 0 "boom" (some "l1\nl2") rfl rfl

theorem executeFiles_no_noFiles : ∀ (files : List SFile) (i : Nat),
    (executeFiles i files).2 ≠ some ExecFault.noFiles := by
  intro files
  induction files with
  | nil => intro i h; cases h
  | cons f rest ih =>
    intro i h
    by_cases hd : f.data
    · simp only [executeFiles, hd, if_true] at h
      exact ih (i+1) h
    · simp only [executeFiles, hd, if_false] at h
      cases h

theorem executeFiles_fault : ∀ (files : List SFile) (i : Nat),
    (executeFiles i files).2 = some ExecFault.dataNotLoaded →
    ∃ k, files[k]? = some ⟨false⟩ ∧
      (∀ j, j < k → ∃ f, files[j]? = some f ∧ f.data = true) ∧
      (executeFiles i files).1 = evPrefix i k := by
  intro files
  induction files with
  | nil => intro i h; cases h
  | cons f rest ih =>
    intro i h
    by_cases hd : f.data
    · simp only [executeFiles, hd, if_true] at h ⊢
      obtain ⟨k, h1, h2, h3⟩ := ih (i+1) h
      refine ⟨k + 1, by simpa using h1, ?_, ?_⟩
      · intro j hj
        cases j with
        | zero =>
          refine ⟨f, by simp, hd⟩
        | succ j =>
          obtain ⟨f2, hf2, hf2d⟩ := h2 j (by omega)
          exact ⟨f2, by simpa using hf2, hf2d⟩
      · simp only [evPrefix]
        rw [h3]
    · simp only [executeFiles, hd, if_false] at h ⊢
      refine ⟨0, ?_, by omega, rfl⟩
      have : f = ⟨false⟩ := by
        cases f with
        | mk d => cases d with
          | true => exact absurd rfl hd
          | false => rfl
      rw [this]
      simp

theorem evPrefix_unitConstructed_lt : ∀ (k i m : Nat),
    ExecEvent.unitConstructed m ∈ evPrefix i k → m < i + k := by
  intro k
  induction k with
  | zero => intro i m h; cases h
  | succ k ih =>
    intro i m h
    simp only [evPrefix, List.mem_cons] at h
    rcases h with h | h | h | h
    · cases h; omega
    · cases h
    · cases h
    · have := ih (i+1) m h
      omega

/-- Counterexample to C5 as stated: executing two files where the second
lacks its data payload raises the `dataNotLoaded` fault only after an
Execution Unit has already been constructed (and run) for the first file. -/
theorem execute_unit_before_fault_cex :
    (execute none [⟨true⟩, ⟨false⟩]).2 = some ExecFault.dataNotLoaded ∧
    ExecEvent.unitConstructed 0 ∈ (execute none [⟨true⟩, ⟨false⟩]).1 := by
  decide

/-- C5 as amended: the `noFiles` fault is raised before any Execution Unit
is constructed; the `dataNotLoaded` fault is raised before a unit is
constructed for the offending file (the first target whose payload is
absent), though units for earlier targets with data have already been
constructed and run. -/
theorem execute_fault_order (fileArg : Option SFile) (loaded : List SFile) :
    ((execute fileArg loaded).2 = some ExecFault.noFiles →
      (execute fileArg loaded).1 = []) ∧
    ((execute fileArg loaded).2 = some ExecFault.dataNotLoaded →
      ∃ k, (targetFiles fileArg loaded)[k]? = some ⟨false⟩ ∧
        (∀ j, j < k → ∃ f, (targetFiles fileArg loaded)[j]? = some f ∧ f.data = true) ∧
        (execute fileArg loaded).1 = evPrefix 0 k ∧
        ExecEvent.unitConstructed k ∉ (execute fileArg loaded).1) := by
  by_cases hlen : (targetFiles fileArg loaded).length = 0
  · constructor
    · intro _
      simp [execute, hlen]
    · intro h
      simp only [execute, hlen, if_true] at h
      cases h
  · constructor
    · intro h
      simp only [execute, hlen, if_false] at h
      exact absurd h (executeFiles_no_noFiles _ 0)
    · intro h
      simp only [execute, hlen, if_false] at h ⊢
      obtain ⟨k, h1, h2, h3⟩ := executeFiles_fault _ 0 h
      refine ⟨k, h1, h2, h3, ?_⟩
      intro hmem
      rw [h3] at hmem
      have := evPrefix_unitConstructed_lt k 0 k hmem
      omega

/-- Witness for C5's amended statement at a concrete input: with targets
`[withData, withoutData]` the fault identifies file 1, file 0 ran with data,
the events are exactly those of file 0, and no unit was constructed for
file 1. -/
theorem execute_fault_order_witness :
    ∃ k, (targetFiles none [⟨true⟩, ⟨false⟩])[k]? = some ⟨false⟩ ∧
      (∀ j, j < k → ∃ f, (targetFiles none [⟨true⟩, ⟨false⟩])[j]? = some f ∧
        f.data = true) ∧
      (execute none [⟨true⟩, ⟨false⟩]).1 = evPrefix 0 k ∧
      ExecEvent.unitConstructed k ∉ (execute none [⟨true⟩, ⟨false⟩]).1 := by
  exact (execute_fault_order none [⟨true⟩, ⟨false⟩]).2 (by decide)

/-- Counterexample to C8 as stated: the value `0` is not the explicit value
`false`, yet the success callback does not call `execute` for it (the code
tests truthiness, not `execute === false`). -/
theorem load_execute_flag_cex :
    (JsVal.num 0 ≠ JsVal.boolean false) ∧
    LoadEvent.executeCalled 3 ∉ loadCallback (JsVal.num 0) 3 := by
  decide

/-- C8 as amended: on success the callback first emits the `file-loaded`
notification and then calls `execute` exactly when the `execute` argument is
truthy or undefined — so execution is skipped for every defined falsy value
(`false`, `0`, `''`, `null`), not only for `false`; restricted to boolean
arguments, only `false` skips execution. -/
theorem load_success_behavior (v : JsVal) (f : Nat) :
    (loadCallback v f).head? = some (LoadEvent.fileLoaded f) ∧
    (LoadEvent.executeCalled f ∈ loadCallback v f ↔
      (truthy v = true ∨ v = JsVal.undef)) ∧
    (∀ b : Bool, LoadEvent.executeCalled f ∈ loadCallback (JsVal.boolean b) f ↔
      b ≠ false) := by
  refine ⟨rfl, ?_, ?_⟩
  · cases v with
    | undef => simp [loadCallback, truthy]
    | nullv => simp [loadCallback, truthy]
    | boolean b => cases b <;> simp [loadCallback, truthy]
    | num n => by_cases hn : n = 0 <;> simp [loadCallback, truthy, hn]
    | str s => by_cases hs : s = "" <;> simp [loadCallback, truthy, hs]
    | obj id => simp [loadCallback, truthy]
  · intro b
    cases b <;> simp [loadCallback, truthy]

/-- Counterexample to C9 as stated: a second `dispose()` on the same VM
faults — `this.fileManager.dispose()` reads a property of the deleted
(`undefined`) file manager — so dispose is not idempotent. -/
theorem dispose_twice_cex :
    dispose ⟨some [0, 1], some 0, some 0, some 0, some [], true⟩ ⟨[1, 2], some 3, [4]⟩ =
      Except.ok (⟨none, none, none, none, none, false⟩, emptyPools) ∧
    dispose ⟨none, none, none, none, none, false⟩ emptyPools =
      Except.error DisposeFault.fileManagerUndefined := by
  exact ⟨rfl, rfl⟩

/-- C9 as amended: a single `dispose()` discards every VM-owned reference
and clears the process-wide pools (closure graveyard, current-closure
marker, coroutine graveyard), so a freshly constructed VM observes empty
pools; but `dispose()` is not idempotent — a second call faults when it
reaches the deleted file manager. -/
theorem dispose_clears_pools (vm : VMOwned) (pools : Pools)
    (h : vm.fileManager = true) :
    ∃ vm', dispose vm pools = Except.ok (vm', emptyPools) ∧
      vm'.files = none ∧ vm'.thread = none ∧ vm'.globalsRef = none ∧
      vm'.envRef = none ∧ vm'.coroutineStack = none ∧ vm'.fileManager = false ∧
      ∀ pools', dispose vm' pools' = Except.error DisposeFault.fileManagerUndefined := by
  refine ⟨⟨none, none, none, none, none, false⟩, ?_, rfl, rfl, rfl, rfl, rfl, rfl, ?_⟩
  · simp [dispose, h]
  · intro pools'
    simp [dispose]

/-- Witness for C9's amended statement at a concrete input. -/
theorem dispose_clears_pools_witness :
    ∃ vm', dispose ⟨some [0, 1], some 0, some 0, some 0, some [], true⟩
        ⟨[1, 2], some 3, [4]⟩ = Except.ok (vm', emptyPools) ∧
      vm'.files = none ∧ vm'.thread = none ∧ vm'.globalsRef = none ∧
      vm'.envRef = none ∧ vm'.coroutineStack = none ∧ vm'.fileManager = false ∧
      ∀ pools', dispose vm' pools' = Except.error DisposeFault.fileManagerUndefined := by
  exact dispose_clears_pools ⟨some [0, 1], some 0, some 0, some 0, some [], true⟩
    ⟨[1, 2], some 3, [4]⟩ rfl

theorem tget_tset_self (t : TableObj) (k : String) (v : GValue) :
    tget (tset t k v) k = some v := by
  induction t with
  | nil => simp [tset, tget]
  | cons kv rest ih =>
    obtain ⟨k0, v0⟩ := kv
    by_cases hk : k0 = k
    · simp [tset, tget, hk]
    · simp [tset, tget, hk, ih]

theorem tget_tset_ne (t : TableObj) (k k2 : String) (v : GValue) (h : k ≠ k2) :
    tget (tset t k v) k2 = tget t k2 := by
  induction t with
  | nil => simp [tset, tget, h]
  | cons kv rest ih =>
    obtain ⟨k0, v0⟩ := kv
    by_cases hk : k0 = k
    · subst hk
      simp [tset, tget, h]
    · simp [tset, hk, tget, ih]

theorem tget_mem (t : TableObj) (k : String) (v : GValue) (h : tget t k = some v) :
    (k, v) ∈ t := by
  induction t with
  | nil => cases h
  | cons kv rest ih =>
    obtain ⟨k0, v0⟩ := kv
    by_cases hk : k0 = k
    · subst hk
      have h2 : some v0 = some v := by simpa [tget] using h
      cases h2
      exact List.mem_cons_self _ _
    · simp only [tget, if_neg hk] at h
      exact List.mem_cons_of_mem _ (ih h)

theorem heapSet_length (h : Heap) (a : Nat) (k : String) (v : GValue) :
    (heapSet h a k v).length = h.length := by
  induction h generalizing a with
  | nil => rfl
  | cons t rest ih =>
    cases a with
    | zero => rfl
    | succ a => simp [heapSet, ih]

theorem hget_heapSet_self (h : Heap) (a : Nat) (k : String) (v : GValue) :
    (heapSet h a k v)[a]? = (h[a]?).map (fun t => tset t k v) := by
  induction h generalizing a with
  | nil => simp [heapSet]
  | cons t rest ih =>
    cases a with
    | zero => simp [heapSet]
    | succ a => simpa [heapSet] using ih a

theorem hget_heapSet_ne (h : Heap) (a i : Nat) (k : String) (v : GValue)
    (hne : i ≠ a) : (heapSet h a k v)[i]? = h[i]? := by
  induction h generalizing a i with
  | nil => simp [heapSet]
  | cons t rest ih =>
    cases a with
    | zero =>
      cases i with
      | zero => exact absurd rfl hne
      | succ j => simp [heapSet]
    | succ a =>
      cases i with
      | zero => simp [heapSet]
      | succ j =>
        simp only [heapSet, List.getElem?_cons_succ]
        exact ih a j (fun hh => hne (by omega))

theorem readField_heapSet_same_ne (h : Heap) (g : Nat) (k0 : String) (v0 : GValue)
    (k : String) (hk : k0 ≠ k) :
    readField (heapSet h g k0 v0) g k = readField h g k := by
  simp only [readField, hget_heapSet_self]
  cases h[g]? with
  | none => rfl
  | some t => simp [tget_tset_ne t k0 k v0 hk]

theorem readField_heapSet_self (h : Heap) (g : Nat) (k : String) (v : GValue)
    (hsome : (h[g]?).isSome) : readField (heapSet h g k v) g k = some v := by
  simp only [readField, hget_heapSet_self]
  cases hg : h[g]? with
  | none => rw [hg] at hsome; cases hsome
  | some t => simp [tget_tset_self]

theorem readField_heapSet_other (h : Heap) (a : Nat) (k0 : String) (v0 : GValue)
    (i : Nat) (k : String) (hia : i ≠ a) :
    readField (heapSet h a k0 v0) i k = readField h i k := by
  simp only [readField, hget_heapSet_ne h a i k0 v0 hia]

theorem heapDown_extend (h : Heap) (t : TableObj) (hd : heapDown h)
    (ht : refsBelow h.length t) : heapDown (h ++ [t]) := by
  intro i t2 hi
  rcases Nat.lt_trichotomy i h.length with hlt | heq | hgt
  · rw [List.getElem?_append_left hlt] at hi
    exact hd i t2 hi
  · subst heq
    rw [List.getElem?_concat_length] at hi
    cases hi
    exact ht
  · rw [List.getElem?_eq_none (by simp; omega)] at hi
    cases hi

theorem envOverlay_other (g : Nat) (env : List (String × GValue)) :
    ∀ (h : Heap) (i : Nat), i ≠ g → (envOverlay g env h)[i]? = h[i]? := by
  induction env with
  | nil => intro h i _; rfl
  | cons kv rest ih =>
    intro h i hig
    simp only [envOverlay, List.foldl_cons] at ih ⊢
    rw [ih _ i hig, hget_heapSet_ne _ _ _ _ _ hig]

theorem envOverlay_notin (g : Nat) (env : List (String × GValue)) (k : String)
    (hk : k ∉ List.map Prod.fst env) :
    ∀ h : Heap, readField (envOverlay g env h) g k = readField h g k := by
  induction env with
  | nil => intro h; rfl
  | cons kv rest ih =>
    intro h
    simp only [List.map_cons, List.mem_cons] at hk
    push_neg at hk
    simp only [envOverlay, List.foldl_cons] at ih ⊢
    rw [ih (fun hm => hk.2 hm) _]
    exact readField_heapSet_same_ne h g kv.1 kv.2 k (fun hh => hk.1 hh.symm)

theorem envOverlay_isSome (g : Nat) (env : List (String × GValue)) :
    ∀ (h : Heap) (i : Nat), ((envOverlay g env h)[i]?).isSome = (h[i]?).isSome := by
  induction env with
  | nil => intro h i; rfl
  | cons kv rest ih =>
    intro h i
    simp only [envOverlay, List.foldl_cons] at ih ⊢
    rw [ih]
    by_cases hig : i = g
    · subst hig
      rw [hget_heapSet_self]
      cases h[i]? <;> rfl
    · rw [hget_heapSet_ne _ _ _ _ _ hig]

theorem envOverlay_mem (g : Nat) (env : List (String × GValue))
    (hnd : (List.map Prod.fst env).Nodup) (k : String) (v : GValue)
    (hmem : (k, v) ∈ env) :
    ∀ h : Heap, (h[g]?).isSome → readField (envOverlay g env h) g k = some v := by
  induction env with
  | nil => cases hmem
  | cons kv rest ih =>
    intro h hsome
    simp only [List.map_cons, List.nodup_cons] at hnd
    rcases List.mem_cons.mp hmem with heq | hrest
    · subst heq
      have hnotin : k ∉ List.map Prod.fst rest := hnd.1
      show readField (envOverlay g rest (heapSet h g k v)) g k = some v
      rw [envOverlay_notin g rest k hnotin _]
      exact readField_heapSet_self h g k v hsome
    · show readField (envOverlay g rest (heapSet h g kv.1 kv.2)) g k = some v
      refine ih hnd.2 hrest _ ?_
      rw [hget_heapSet_self]
      cases hg : h[g]? with
      | none => rw [hg] at hsome; cases hsome
      | some t => rfl

theorem loadedAddr_of_resolves (h : Heap) (g p l : Nat) (hres : resolvesTo h g p l) :
    loadedAddr h g = some l := by
  obtain ⟨h1, h2⟩ := hres
  simp [loadedAddr, h1, h2]

theorem regWrites_notin (fs : List (String × GValue)) (k : String)
    (hk : k ∉ List.map Prod.fst fs) :
    ∀ t : TableObj, tget (regWrites fs t) k = tget t k := by
  induction fs with
  | nil => intro t; rfl
  | cons kv rest ih =>
    obtain ⟨k0, v0⟩ := kv
    simp only [List.map_cons, List.mem_cons] at hk
    push_neg at hk
    intro t
    cases v0 with
    | tableRef b =>
      show tget (regWrites rest (tset t k0 (GValue.tableRef b))) k = tget t k
      rw [ih hk.2, tget_tset_ne t k0 k _ (fun hh => hk.1 hh.symm)]
    | prim p2 => exact ih hk.2 t
    | boundFn q => exact ih hk.2 t
    | hostObj q => exact ih hk.2 t

theorem regWrites_mem (fs : List (String × GValue))
    (hnd : (List.map Prod.fst fs).Nodup) (k : String) (a : Nat)
    (hmem : (k, GValue.tableRef a) ∈ fs) :
    ∀ t : TableObj, tget (regWrites fs t) k = some (GValue.tableRef a) := by
  induction fs with
  | nil => cases hmem
  | cons kv rest ih =>
    obtain ⟨k0, v0⟩ := kv
    simp only [List.map_cons, List.nodup_cons] at hnd
    intro t
    rcases List.mem_cons.mp hmem with heq | hrest
    · have hk : k0 = k := by cases heq; rfl
      have hv : v0 = GValue.tableRef a := by cases heq; rfl
      subst hk hv
      show tget (regWrites rest (tset t k0 (GValue.tableRef a))) k0 = _
      rw [regWrites_notin rest k0 hnd.1, tget_tset_self]
    · have hkrest : k ∈ List.map Prod.fst rest :=
        List.mem_map.mpr ⟨(k, GValue.tableRef a), hrest, rfl⟩
      have hkne : k0 ≠ k := fun hh => hnd.1 (hh ▸ hkrest)
      cases v0 with
      | tableRef b => exact ih hnd.2 hrest (tset t k0 (GValue.tableRef b))
      | prim p2 => exact ih hnd.2 hrest t
      | boundFn q => exact ih hnd.2 hrest t
      | hostObj q => exact ih hnd.2 hrest t

theorem regFields_ok (g p l : Nat) (hlg : l ≠ g) (hlp : l ≠ p) :
    ∀ (fs : List (String × GValue)) (h : Heap), resolvesTo h g p l →
    ∃ h2, regFields g fs h = some h2 ∧ resolvesTo h2 g p l ∧
      (∀ i, i ≠ l → h2[i]? = h[i]?) ∧
      h2[l]? = (h[l]?).map (regWrites fs) := by
  intro fs
  induction fs with
  | nil =>
    intro h hres
    exact ⟨h, rfl, hres, fun i _ => rfl, by cases h[l]? <;> rfl⟩
  | cons kv rest ih =>
    obtain ⟨k, v⟩ := kv
    intro h hres
    cases v with
    | tableRef b =>
      have hla := loadedAddr_of_resolves h g p l hres
      have hres2 : resolvesTo (heapSet h l k (GValue.tableRef b)) g p l := by
        obtain ⟨hr1, hr2⟩ := hres
        constructor
        · rw [readField_heapSet_other _ _ _ _ _ _ (fun hh => hlg hh.symm)]
          exact hr1
        · rw [readField_heapSet_other _ _ _ _ _ _ (fun hh => hlp hh.symm)]
          exact hr2
      obtain ⟨h2, hreg, hres3, hoth, hl⟩ := ih (heapSet h l k (GValue.tableRef b)) hres2
      refine ⟨h2, ?_, hres3, ?_, ?_⟩
      · simp only [regFields]
        rw [hla]
        exact hreg
      · intro i hi
        rw [hoth i hi, hget_heapSet_ne _ _ _ _ _ hi]
      · rw [hl, hget_heapSet_self]
        cases h[l]? <;> rfl
    | prim p2 =>
      obtain ⟨h2, hreg, hres3, hoth, hl⟩ := ih h hres
      exact ⟨h2, by simpa [regFields] using hreg, hres3, hoth,
        by rw [hl]; cases h[l]? <;> rfl⟩
    | boundFn q =>
      obtain ⟨h2, hreg, hres3, hoth, hl⟩ := ih h hres
      exact ⟨h2, by simpa [regFields] using hreg, hres3, hoth,
        by rw [hl]; cases h[l]? <;> rfl⟩
    | hostObj q =>
      obtain ⟨h2, hreg, hres3, hoth, hl⟩ := ih h hres
      exact ⟨h2, by simpa [regFields] using hreg, hres3, hoth,
        by rw [hl]; cases h[l]? <;> rfl⟩

theorem valBelow_mono (n m : Nat) (v : GValue) (hnm : n ≤ m) (hv : valBelow n v) :
    valBelow m v := by
  cases v with
  | tableRef a => exact Nat.lt_of_lt_of_le hv hnm
  | prim p => trivial
  | boundFn q => trivial
  | hostObj q => trivial

theorem tableLike_shape (e : LibEntry) (v : GValue) (ht : tableLike e = true)
    (hs : valShape e v) : ∃ a, v = GValue.tableRef a := by
  cases e with
  | tbl fields => exact hs
  | nested es => exact hs
  | fn id => cases ht
  | scalar p => cases ht

mutual

theorem bindEntry_spec : ∀ (e : LibEntry) (h : Heap), heapDown h →
    h.length ≤ (bindEntry e h).2.length ∧
    (∀ i, i < h.length → (bindEntry e h).2[i]? = h[i]?) ∧
    heapDown (bindEntry e h).2 ∧
    valBelow (bindEntry e h).2.length (bindEntry e h).1 ∧
    valShape e (bindEntry e h).1 ∧
    (∀ a, (bindEntry e h).1 = GValue.tableRef a →
      ∃ t, (bindEntry e h).2[a]? = some t ∧ oneLevel e t) := by
  intro e h hd
  cases e with
  | tbl fields =>
    simp only [bindEntry, alloc]
    refine ⟨by simp, ?_, ?_, ?_, ⟨h.length, rfl⟩, ?_⟩
    · intro i hi
      exact List.getElem?_append_left hi
    · refine heapDown_extend h _ hd ?_
      intro kv hkv
      simp only [List.mem_map] at hkv
      obtain ⟨x, _, rfl⟩ := hkv
      trivial
    · simp [valBelow]
    · intro a ha
      cases ha
      refine ⟨_, List.getElem?_concat_length _ _, ?_⟩
      trivial
  | nested es =>
    obtain ⟨hlen, hpre, hdown, hrefs, hkeys, hlook⟩ := bindEntries_spec es h hd
    simp only [bindEntry, alloc]
    refine ⟨by simp; omega, ?_, heapDown_extend _ _ hdown hrefs, ?_, ?_, ?_⟩
    · intro i hi
      rw [List.getElem?_append_left (Nat.lt_of_lt_of_le hi hlen)]
      exact hpre i hi
    · simp [valBelow]
    · exact ⟨(bindEntries es h).2.length, rfl⟩
    · intro a ha
      cases ha
      refine ⟨(bindEntries es h).1, List.getElem?_concat_length _ _, ?_⟩
      simp only [oneLevel]
      refine ⟨hkeys, ?_⟩
      intro hnodup k e2 hmem htbl
      obtain ⟨v, hv, hshape, _⟩ := hlook hnodup k e2 hmem
      obtain ⟨b, rfl⟩ := tableLike_shape e2 v htbl hshape
      exact ⟨b, hv⟩
  | fn id =>
    refine ⟨le_refl _, fun i _ => rfl, hd, trivial, rfl, ?_⟩
    intro a ha
    simp only [bindEntry] at ha
    cases ha
  | scalar p =>
    refine ⟨le_refl _, fun i _ => rfl, hd, trivial, rfl, ?_⟩
    intro a ha
    simp only [bindEntry] at ha
    cases ha

theorem bindEntries_spec : ∀ (l : List (String × LibEntry)) (h : Heap), heapDown h →
    h.length ≤ (bindEntries l h).2.length ∧
    (∀ i, i < h.length → (bindEntries l h).2[i]? = h[i]?) ∧
    heapDown (bindEntries l h).2 ∧
    refsBelow (bindEntries l h).2.length (bindEntries l h).1 ∧
    List.map Prod.fst (bindEntries l h).1 = List.map Prod.fst l ∧
    ((List.map Prod.fst l).Nodup → ∀ k e, (k, e) ∈ l →
      ∃ v, tget (bindEntries l h).1 k = some v ∧ valShape e v ∧
        ∀ a, v = GValue.tableRef a →
          ∃ t, (bindEntries l h).2[a]? = some t ∧ oneLevel e t) := by
  intro l h hd
  cases l with
  | nil =>
    refine ⟨le_refl _, fun i _ => rfl, hd, ?_, rfl, ?_⟩
    · intro kv hkv
      simp only [bindEntries] at hkv
      cases hkv
    · intro _ k e hmem
      cases hmem
  | cons ke rest =>
    obtain ⟨k0, e0⟩ := ke
    obtain ⟨l1, p1, d1, vb1, vs1, tf1⟩ := bindEntry_spec e0 h hd
    obtain ⟨l2, p2, d2, rb2, keys2, look2⟩ := bindEntries_spec rest (bindEntry e0 h).2 d1
    simp only [bindEntries]
    refine ⟨le_trans l1 l2, ?_, d2, ?_, by simp [keys2], ?_⟩
    · intro i hi
      rw [p2 i (Nat.lt_of_lt_of_le hi l1)]
      exact p1 i hi
    · intro kv hkv
      rcases List.mem_cons.mp hkv with heq | hrest

      · cases heq
        exact valBelow_mono _ _ _ l2 vb1
      · exact rb2 kv hrest
    · intro hnodup k e hmem
      have hnd2 : k0 ∉ List.map Prod.fst rest ∧ (List.map Prod.fst rest).Nodup := by
        simpa using hnodup
      rcases List.mem_cons.mp hmem with heq | hrest
      · cases heq
        refine ⟨(bindEntry e0 h).1, ?_, vs1, ?_⟩
        · simp [tget]
        · intro a ha
          obtain ⟨t, hti, hol⟩ := tf1 a ha
          have halt : a < (bindEntry e0 h).2.length := by
            rw [ha] at vb1
            exact vb1
          refine ⟨t, ?_, hol⟩
          rw [p2 a halt]
          exact hti
      · have hkrest : k ∈ List.map Prod.fst rest :=
          List.mem_map.mpr ⟨(k, e), hrest, rfl⟩
        have hkne : k0 ≠ k := fun hh => hnd2.1 (hh ▸ hkrest)
        obtain ⟨v, hv, hs, htf⟩ := look2 hnd2.2 k e hrest
        refine ⟨v, ?_, hs, htf⟩
        simp only [tget, if_neg hkne]
        exact hv

end

theorem heapDown_nil : heapDown ([] : Heap) := by
  intro i t hi
  simp at hi

theorem hget_some_of_lt (h : Heap) (i : Nat) (hi : i < h.length) :
    ∃ t, h[i]? = some t :=
  ⟨h[i], List.getElem?_eq_getElem hi⟩

theorem heapSet_isSome (h : Heap) (a : Nat) (k : String) (v : GValue) (i : Nat) :
    ((heapSet h a k v)[i]?).isSome = (h[i]?).isSome := by
  by_cases hia : i = a
  · subst hia
    rw [hget_heapSet_self]
    cases h[i]? <;> rfl
  · rw [hget_heapSet_ne _ _ _ _ _ hia]

theorem regFields_isSome (g : Nat) : ∀ (fs : List (String × GValue)) (h h2 : Heap),
    regFields g fs h = some h2 → ∀ i : Nat, (h2[i]?).isSome = (h[i]?).isSome := by
  intro fs
  induction fs with
  | nil =>
    intro h h2 hr i
    have hh : h = h2 := by simpa [regFields] using hr
    rw [hh]
  | cons kv rest ih =>
    obtain ⟨k, v⟩ := kv
    intro h h2 hr i
    cases v with
    | tableRef b =>
      simp only [regFields] at hr
      cases hla : loadedAddr h g with
      | none => rw [hla] at hr; cases hr
      | some l =>
        rw [hla] at hr
        rw [ih _ _ hr i, heapSet_isSome]
    | prim p2 => exact ih _ _ (by simpa [regFields] using hr) i
    | boundFn q => exact ih _ _ (by simpa [regFields] using hr) i
    | hostObj q => exact ih _ _ (by simpa [regFields] using hr) i

theorem registerLoaded_isSome (h : Heap) (g : Nat) (h2 : Heap)
    (hr : registerLoaded h g = some h2) :
    ∀ i : Nat, (h2[i]?).isSome = (h[i]?).isSome := by
  simp only [registerLoaded] at hr
  cases hg : h[g]? with
  | none => rw [hg] at hr; cases hr
  | some fs =>
    rw [hg] at hr
    exact regFields_isSome g fs h h2 hr

theorem readField_envOverlay_other (g : Nat) (env : List (String × GValue))
    (h : Heap) (i : Nat) (k : String) (hig : i ≠ g) :
    readField (envOverlay g env h) i k = readField h i k := by
  simp only [readField, envOverlay_other g env h i hig]

theorem bindLib_get_self (lib : List (String × LibEntry)) (h0 : Heap) :
    (bindLib lib h0).2[(bindLib lib h0).1]? = some (bindEntries lib h0).1 := by
  simp only [bindLib, alloc]
  exact List.getElem?_concat_length _ _

theorem bindLib_fst (lib : List (String × LibEntry)) (h0 : Heap) :
    (bindLib lib h0).1 = (bindEntries lib h0).2.length := by
  simp [bindLib, alloc]

theorem bindLib_snd (lib : List (String × LibEntry)) (h0 : Heap) :
    (bindLib lib h0).2 = (bindEntries lib h0).2 ++ [(bindEntries lib h0).1] := by
  simp [bindLib, alloc]

theorem resetGlobals_unpack (lib : List (String × LibEntry))
    (env : List (String × GValue)) (h0 : Heap) (g : Nat) (hfin : Heap)
    (hres : resetGlobals lib env h0 = some (g, hfin)) :
    ∃ h2 l, registerLoaded (bindLib lib h0).2 (bindLib lib h0).1 = some h2 ∧
      loadedAddr h2 (bindLib lib h0).1 = some l ∧
      g = (bindLib lib h0).1 ∧
      hfin = envOverlay g env (heapSet h2 l "_G" (GValue.tableRef g)) := by
  simp only [resetGlobals] at hres
  cases hreg : registerLoaded (bindLib lib h0).2 (bindLib lib h0).1 with
  | none => rw [hreg] at hres; cases hres
  | some h2 =>
    rw [hreg] at hres
    simp only at hres
    cases hla : loadedAddr h2 (bindLib lib h0).1 with
    | none => rw [hla] at hres; cases hres
    | some l =>
      rw [hla] at hres
      simp only [Option.some.injEq, Prod.mk.injEq] at hres
      obtain ⟨hg, hf⟩ := hres
      subst hg
      subst hf
      exact ⟨h2, l, rfl, hla, rfl, rfl⟩

/-- C6: after constructing a VM with any host environment map `env`, every
key of `env` is present in the global namespace with the host-supplied
value, overwriting any standard-library binding of the same name, so host
bindings strictly take precedence over library bindings. -/
theorem resetGlobals_host_env_precedence (lib : List (String × LibEntry))
    (env : List (String × GValue)) (h0 : Heap) (g : Nat) (hfin : Heap)
    (hnd : (List.map Prod.fst env).Nodup)
    (hres : resetGlobals lib env h0 = some (g, hfin)) :
    ∀ k v, (k, v) ∈ env → getGlobal hfin g k = some v := by
  obtain ⟨h2, l, hreg, hla, hg, hf⟩ := resetGlobals_unpack lib env h0 g hfin hres
  intro k v hmem
  rw [hf]
  show readField (envOverlay g env (heapSet h2 l "_G" (GValue.tableRef g))) g k = some v
  apply envOverlay_mem g env hnd k v hmem
  rw [heapSet_isSome, hg, registerLoaded_isSome _ _ _ hreg, bindLib_get_self]
  rfl

/-- Witness for C6 at a concrete input: a host env entry `x ↦ 1` is
reachable as a global after construction. -/
theorem resetGlobals_host_env_precedence_witness :
    getGlobal
      [[("package", GValue.tableRef 1), ("_G", GValue.tableRef 2)],
        [("loaded", GValue.tableRef 0)],
        [("package", GValue.tableRef 1), ("x", GValue.prim (Prim.num 1))]] 2 "x" =
      some (GValue.prim (Prim.num 1)) := by
  exact resetGlobals_host_env_precedence
    [("package", LibEntry.nested [("loaded", LibEntry.nested [])])]
    [("x", GValue.prim (Prim.num 1))] [] 2
    [[("package", GValue.tableRef 1), ("_G", GValue.tableRef 2)],
      [("loaded", GValue.tableRef 0)],
      [("package", GValue.tableRef 1), ("x", GValue.prim (Prim.num 1))]]
    (by decide) (by decide) "x" (GValue.prim (Prim.num 1)) (by decide)

/-- Counterexample to C7 as stated: with a host env overriding the library
table name `string`, immediately after construction the `string` library
table is registered under `package.loaded` but is no longer reachable as a
global (the global slot holds the host value `42`), so dual reachability
fails. -/
theorem dual_reach_cex :
    resetGlobals
      [("package", LibEntry.nested [("loaded", LibEntry.nested [])]),
        ("string", LibEntry.tbl [])]
      [("string", GValue.prim (Prim.num 42))] [] =
      some (3,
        [[("package", GValue.tableRef 1), ("string", GValue.tableRef 2),
            ("_G", GValue.tableRef 3)],
          [("loaded", GValue.tableRef 0)],
          [],
          [("package", GValue.tableRef 1),
            ("string", GValue.prim (Prim.num 42))]]) ∧
    ¬ dualReach
      [("package", LibEntry.nested [("loaded", LibEntry.nested [])]),
        ("string", LibEntry.tbl [])]
      [[("package", GValue.tableRef 1), ("string", GValue.tableRef 2),
          ("_G", GValue.tableRef 3)],
        [("loaded", GValue.tableRef 0)],
        [],
        [("package", GValue.tableRef 1), ("string", GValue.prim (Prim.num 42))]]
      3 := by
  constructor
  · decide
  · intro hdr
    obtain ⟨a, hga, _⟩ := hdr "string" (LibEntry.tbl [])
      (List.mem_cons_of_mem _ (List.mem_cons_self _ _)) rfl
    have hval : readField
        [[("package", GValue.tableRef 1), ("string", GValue.tableRef 2),
            ("_G", GValue.tableRef 3)],
          [("loaded", GValue.tableRef 0)],
          [],
          [("package", GValue.tableRef 1), ("string", GValue.prim (Prim.num 42))]]
        3 "string" = some (GValue.prim (Prim.num 42)) := by decide
    rw [hval] at hga
    simp at hga

/-- The `package.loaded` invariant is preserved by any `setGlobal` whose name
is neither `package` nor the name of a table-like library entry. -/
theorem loadedInv_setGlobal (lib : List (String × LibEntry)) (h : Heap) (g : Nat)
    (name : String) (v : GValue) (hinv : loadedInv lib h g)
    (hname : name ≠ "package")
    (hnames : ∀ k e, (k, e) ∈ lib → tableLike e = true → k ≠ name) :
    loadedInv lib (setGlobal h g name v) g := by
  obtain ⟨p, l, hpg, hlg, hlp, ⟨hr1, hr2⟩, hla, hG, htbls⟩ := hinv
  have hr1s : readField (setGlobal h g name v) g "package" =
      some (GValue.tableRef p) := by
    rw [setGlobal, readField_heapSet_same_ne _ _ _ _ _ hname]
    exact hr1
  have hr2s : readField (setGlobal h g name v) p "loaded" =
      some (GValue.tableRef l) := by
    rw [setGlobal, readField_heapSet_other _ _ _ _ _ _ hpg]
    exact hr2
  refine ⟨p, l, hpg, hlg, hlp, ⟨hr1s, hr2s⟩,
    loadedAddr_of_resolves _ _ _ _ ⟨hr1s, hr2s⟩, ?_, ?_⟩
  · rw [setGlobal, readField_heapSet_other _ _ _ _ _ _ hlg]
    exact hG
  · intro k e hmem htbl
    obtain ⟨a, hga, hla2⟩ := htbls k e hmem htbl
    refine ⟨a, ?_, ?_⟩
    · rw [setGlobal,
        readField_heapSet_same_ne _ _ _ _ _ (fun hh => hnames k e hmem htbl hh.symm)]
      exact hga
    · rw [setGlobal, readField_heapSet_other _ _ _ _ _ _ hlg]
      exact hla2

/-- C7 as amended: after construction — provided the host env does not
override `package` or the name of any table-like library entry, the library
description has unambiguous keys, contains no `_G` entry, and its `package`
entry is a nested object with a nested `loaded` object — `package.loaded._G`
references the VM's globals table itself and every table-like top-level
library entry is simultaneously reachable as a global and as a
`package.loaded` entry under its own name; and this invariant is maintained
by every `setGlobal` whose name is neither `package` nor a table-like
library entry name. An env or `setGlobal` collision breaks it, as the
counterexample shows. -/
theorem resetGlobals_loaded_inv (lib : List (String × LibEntry))
    (env : List (String × GValue)) (h0 : Heap) (pes : List (String × LibEntry))
    (g : Nat) (hfin : Heap)
    (hd0 : heapDown h0)
    (hlibnd : (List.map Prod.fst lib).Nodup)
    (hGnotin : "_G" ∉ List.map Prod.fst lib)
    (hpkgmem : ("package", LibEntry.nested pes) ∈ lib)
    (hpesnd : (List.map Prod.fst pes).Nodup)
    (hloadedmem : ∃ les, ("loaded", LibEntry.nested les) ∈ pes)
    (henvpkg : "package" ∉ List.map Prod.fst env)
    (henvtbl : ∀ k e, (k, e) ∈ lib → tableLike e = true → k ∉ List.map Prod.fst env)
    (hres : resetGlobals lib env h0 = some (g, hfin)) :
    loadedInv lib hfin g ∧
    ∀ name v, name ≠ "package" →
      (∀ k e, (k, e) ∈ lib → tableLike e = true → k ≠ name) →
      loadedInv lib (setGlobal hfin g name v) g := by
  obtain ⟨hlen, hpre, hdownE, hrefs, hkeys, hlook⟩ := bindEntries_spec lib h0 hd0
  obtain ⟨vp, hvp, hshapeP, htfP⟩ := hlook hlibnd "package" (LibEntry.nested pes) hpkgmem
  obtain ⟨p, rfl⟩ : ∃ a, vp = GValue.tableRef a := hshapeP
  obtain ⟨pt, hpt, holP⟩ := htfP p rfl
  have hplt : p < (bindEntries lib h0).2.length := hrefs _ (tget_mem _ _ _ hvp)
  obtain ⟨les, hlmem⟩ := hloadedmem
  simp only [oneLevel] at holP
  obtain ⟨l, hlt⟩ := holP.2 hpesnd "loaded" (LibEntry.nested les) hlmem rfl
  have hllt : l < p := hdownE p pt hpt _ (tget_mem _ _ _ hlt)
  obtain ⟨h2u, lu, hreg, hlau, hgeq, hfeq⟩ := resetGlobals_unpack lib env h0 g hfin hres
  have hglen : g = (bindEntries lib h0).2.length := by rw [hgeq, bindLib_fst]
  have hpg : p ≠ g := by omega
  have hlg : l ≠ g := by omega
  have hlp : l ≠ p := by omega
  have hlgbl : l ≠ (bindLib lib h0).1 := by rw [bindLib_fst]; omega
  have hres1 : resolvesTo (bindLib lib h0).2 (bindLib lib h0).1 p l := by
    constructor
    · simp only [readField, bindLib_get_self]
      exact hvp
    · have hblp : (bindLib lib h0).2[p]? = some pt := by
        rw [bindLib_snd, List.getElem?_append_left hplt]
        exact hpt
      simp only [readField, hblp]
      exact hlt
  obtain ⟨h2, hregeq, hres2, hoth2, hl2⟩ :=
    regFields_ok (bindLib lib h0).1 p l hlgbl hlp
      (bindEntries lib h0).1 (bindLib lib h0).2 hres1
  have hrl : registerLoaded (bindLib lib h0).2 (bindLib lib h0).1 = some h2 := by
    simp only [registerLoaded, bindLib_get_self]
    exact hregeq
  rw [hrl] at hreg
  injection hreg with hreg2
  subst hreg2
  have hlul : l = lu := by
    rw [loadedAddr_of_resolves _ _ _ _ hres2] at hlau
    exact Option.some.inj hlau
  subst hlul
  obtain ⟨lt0, hlt0⟩ :=
    hget_some_of_lt (bindEntries lib h0).2 l (Nat.lt_trans hllt hplt)
  have hbl : (bindLib lib h0).2[l]? = some lt0 := by
    rw [bindLib_snd, List.getElem?_append_left (Nat.lt_trans hllt hplt)]
    exact hlt0
  have h2l : h2[l]? = some (regWrites (bindEntries lib h0).1 lt0) := by
    rw [hl2, hbl]
    rfl
  have hr1g : readField h2 g "package" = some (GValue.tableRef p) := by
    rw [hgeq]
    exact hres2.1
  have hbg : (bindLib lib h0).2[g]? = some (bindEntries lib h0).1 := by
    rw [hgeq]
    exact bindLib_get_self lib h0
  have hinv : loadedInv lib hfin g := by
    have hrf1 : readField hfin g "package" = some (GValue.tableRef p) := by
      rw [hfeq, envOverlay_notin g env "package" henvpkg,
        readField_heapSet_other _ _ _ _ _ _ (fun hh => hlg hh.symm)]
      exact hr1g
    have hrf2 : readField hfin p "loaded" = some (GValue.tableRef l) := by
      rw [hfeq, readField_envOverlay_other g env _ p _ hpg,
        readField_heapSet_other _ _ _ _ _ _ (Ne.symm hlp)]
      exact hres2.2
    refine ⟨p, l, hpg, hlg, hlp, ⟨hrf1, hrf2⟩,
      loadedAddr_of_resolves _ _ _ _ ⟨hrf1, hrf2⟩, ?_, ?_⟩
    · rw [hfeq, readField_envOverlay_other g env _ l _ hlg]
      exact readField_heapSet_self h2 l "_G" (GValue.tableRef g) (by rw [h2l]; rfl)
    · intro k e hmem htbl
      obtain ⟨v, hv, hshape, _⟩ := hlook hlibnd k e hmem
      obtain ⟨a, rfl⟩ := tableLike_shape e v htbl hshape
      have hknotenv : k ∉ List.map Prod.fst env := henvtbl k e hmem htbl
      have hklib : k ∈ List.map Prod.fst lib := List.mem_map.mpr ⟨(k, e), hmem, rfl⟩
      have hGk : "_G" ≠ k := fun hh => hGnotin (hh ▸ hklib)
      refine ⟨a, ?_, ?_⟩
      · rw [hfeq, envOverlay_notin g env k hknotenv,
          readField_heapSet_other _ _ _ _ _ _ (fun hh => hlg hh.symm)]
        have hgother : h2[g]? = (bindLib lib h0).2[g]? :=
          hoth2 g (fun hh => hlg hh.symm)
        simp only [readField, hgother, hbg]
        exact hv
      · rw [hfeq, readField_envOverlay_other g env _ l k hlg,
          readField_heapSet_same_ne _ _ _ _ _ hGk]
        simp only [readField, h2l]
        refine regWrites_mem (bindEntries lib h0).1 ?_ k a (tget_mem _ _ _ hv) lt0
        rw [hkeys]
        exact hlibnd
  exact ⟨hinv, fun name v hn hns => loadedInv_setGlobal lib hfin g name v hinv hn hns⟩

/-- Witness for C7's amended statement at a concrete input: a library with a
`package.loaded` structure and one table `string`, and a non-colliding host
env entry `x`, yields the dual-reachability invariant. -/
theorem resetGlobals_loaded_inv_witness :
    loadedInv
      [("package", LibEntry.nested [("loaded", LibEntry.nested [])]),
        ("string", LibEntry.tbl [])]
      [[("package", GValue.tableRef 1), ("string", GValue.tableRef 2),
          ("_G", GValue.tableRef 3)],
        [("loaded", GValue.tableRef 0)],
        [],
        [("package", GValue.tableRef 1), ("string", GValue.tableRef 2),
          ("x", GValue.prim (Prim.num 7))]]
      3 := by
  refine (resetGlobals_loaded_inv
    [("package", LibEntry.nested [("loaded", LibEntry.nested [])]),
      ("string", LibEntry.tbl [])]
    [("x", GValue.prim (Prim.num 7))] [] [("loaded", LibEntry.nested [])] 3
    _ heapDown_nil (by decide) (by decide)
    (List.mem_cons_self _ _) (by decide)
    ⟨[], List.mem_cons_self _ _⟩ (by decide) ?_ (by decide)).1
  intro k e hmem htbl
  rcases List.mem_cons.mp hmem with heq | hmem2
  · cases heq
    decide
  · rcases List.mem_cons.mp hmem2 with heq2 | hmem3
    · cases heq2
      decide
    · cases hmem3

end Moonshine
